import Mathlib

/-!
Shallow embedding of the `bft` brainfuck toolkit
(`bft_types/src/program.rs`, `bft_types/src/instruction.rs`,
`bft_interp/src/machine.rs`, `bft_interp/src/newline_wrap.rs`).

Machine integers (`usize`, `u8`) are modelled as `Nat`; the cell type is the
`u8` instance of the `CellKind` trait, with wrapping arithmetic written as
explicit `% 256`.  Fallible Rust functions returning `Result` become `Except`.
-/

/-! ## `bft_types/src/instruction.rs` -/

/-- The brainfuck language instructions (Rust `enum Instruction`).
`Inc`/`Dec` move the data pointer; `Succ`/`Pred` change the cell;
`Jz`/`Jnz` carry the resolved jump destination. -/
inductive Instruction where
  | Inc
  | Dec
  | Succ
  | Pred
  | Out
  | In
  | Jz (dest : Nat)
  | Jnz (dest : Nat)
  deriving DecidableEq, Repr

/-! ## `bft_types/src/program.rs` : source locations and parse errors -/

/-- Location of a token in the source code (Rust `struct SourceLocation`),
zero-based line and column. -/
structure SourceLocation where
  line : Nat
  column : Nat
  deriving DecidableEq, Repr

/-- Errors that can occur while parsing brainfuck programs
(Rust `enum BfParseErrorKind`). -/
inductive BfParseErrorKind where
  | UnclosedBracket
  | UnopenedBracket
  deriving DecidableEq, Repr

/-- Error metadata (Rust `struct BfParseError`).  The `filename` field is a
copy of the caller-supplied path and carries no program information, so it is
omitted from the model. -/
structure BfParseError where
  location : SourceLocation
  kind : BfParseErrorKind
  deriving DecidableEq, Repr

/-! ## `bft_types/src/program.rs` : the comment-filtering scan

Rust iterates `file_contents.lines()` and, per line, `line.chars().enumerate()`,
keeping characters of `BF_ALPHABET` together with their `SourceLocation`.
`str::lines` splits the text inclusively at `'\n'` and strips a trailing
`"\r\n"` or `"\n"` from each piece; we reproduce that here on `List Char`. -/

/-- The alphabet of valid brainfuck characters (Rust `BF_ALPHABET`). -/
def BF_ALPHABET : List Char := "><+-.,[]".toList

/-- `c.is_ascii() && BF_ALPHABET.contains(c)` from the filtering loop
(`is_ascii` is "code point at most 0x7F"). -/
def isBfChar (c : Char) : Bool := decide (c.toNat ≤ 0x7F) && BF_ALPHABET.contains c

/-- `str::split_inclusive('\n')`: cut the text after every `'\n'`,
keeping the terminator inside its piece; no empty trailing piece. -/
def splitInclusiveNl : List Char → List (List Char)
  | [] => []
  | c :: rest =>
    if c = '\n' then ['\n'] :: splitInclusiveNl rest
    else
      match splitInclusiveNl rest with
      | [] => [[c]]
      | l :: ls => (c :: l) :: ls

/-- The per-piece map of `str::lines`: strip a trailing `'\n'`, and if one was
stripped also strip a trailing `'\r'` just before it. -/
def stripNl (l : List Char) : List Char :=
  if l.getLast? = some '\n' then
    let l' := l.dropLast
    if l'.getLast? = some '\r' then l'.dropLast else l'
  else l

/-- `file_contents.lines()` as a list of lines. -/
def linesOf (s : List Char) : List (List Char) :=
  (splitInclusiveNl s).map stripNl

/-- One iteration of the inner filtering loop: the brainfuck characters of
`line` (line number `lineNo`), each with its source location. -/
def scanLine (lineNo : Nat) (line : List Char) : List (Char × SourceLocation) :=
  line.enum.filterMap fun q =>
    if isBfChar q.2 then some (q.2, SourceLocation.mk lineNo q.1) else none

/-- The whole filtering loop of `Program::try_new`.  Rust pushes into two
parallel vectors `tokens` / `token_sources`; we model them as one list of
pairs (project with `map Prod.fst` / `map Prod.snd`). -/
def scanTokens (s : List Char) : List (Char × SourceLocation) :=
  ((linesOf s).enum.map fun p => scanLine p.1 p.2).flatten

/-! ## `bft_types/src/program.rs` : jump resolution -/

/-- The `BTreeMap<usize, usize>` of jump destinations, as a finite partial map.
`insert` overwrites, which is function update. -/
abbrev JumpMap := Nat → Option Nat

/-- `BTreeMap::insert`. -/
def updJ (j : JumpMap) (k v : Nat) : JumpMap :=
  fun x => if x = k then some v else j x

/-- `BTreeMap::new`. -/
def emptyJ : JumpMap := fun _ => none

/-- The bracket-matching loop of `Program::try_new` over the filtered token
characters.  `n` is the index of the next token, `st` the `jump_stack`
(Rust `Vec` push/pop at the end = list cons/head).  On a `']'` with an empty
stack the loop's `?` propagates the error; we return the failing token index
(the caller attaches `token_sources[i]` and the error kind). -/
def scanLoop : Nat → List Char → JumpMap → List Nat → Except Nat (JumpMap × List Nat)
  | _, [], j, st => .ok (j, st)
  | n, c :: rest, j, st =>
    if c = '[' then scanLoop (n + 1) rest j (n :: st)
    else if c = ']' then
      match st with
      | [] => .error n
      | src :: st' => scanLoop (n + 1) rest (updJ (updJ j src n) n src) st'
    else scanLoop (n + 1) rest j st

/-- The instruction-construction map of `Program::try_new`.  Rust indexes
`jumps[&i]`, which panics on a missing key; the scan guarantees every bracket
index is present (proved below), so the `getD 0` default is never taken.
The final Rust arm is `unreachable!()` — the tokens are pre-filtered — so the
value of the final else branch is never observed. -/
def buildInstr (jumps : JumpMap) (i : Nat) (c : Char) : Instruction :=
  if c = '>' then .Inc
  else if c = '<' then .Dec
  else if c = '+' then .Succ
  else if c = '-' then .Pred
  else if c = '.' then .Out
  else if c = ',' then .In
  else if c = '[' then .Jz ((jumps i).getD 0 + 1)
  else if c = ']' then .Jnz ((jumps i).getD 0 + 1)
  else .Out

/-- The location-independent core of `Program::try_new`: bracket matching and
instruction construction over the filtered token characters.  An error is the
failing token index together with the error kind: `UnopenedBracket` from the
scan loop, `UnclosedBracket` when `jump_stack.pop()` still yields an element
(the top of the stack) after the scan. -/
def parseInstrs (toks : List Char) : Except (Nat × BfParseErrorKind) (List Instruction) :=
  match scanLoop 0 toks emptyJ [] with
  | .error i => .error (i, .UnopenedBracket)
  | .ok (jumps, st) =>
    match st with
    | u :: _ => .error (u, .UnclosedBracket)
    | [] => .ok (toks.enum.map fun p => buildInstr jumps p.1 p.2)

/-- `Program::try_new` (minus the copied-through filename): filter the source,
match brackets, and either return the instruction list or a `BfParseError`
locating the offending token via `token_sources[i]`.  The error index is
always in range, so the `getD` default location is never taken. -/
def tryNew (s : List Char) : Except BfParseError (List Instruction) :=
  let tks := scanTokens s
  match parseInstrs (tks.map Prod.fst) with
  | .error e => .error ⟨(tks.map Prod.snd).getD e.1 ⟨0, 0⟩, e.2⟩
  | .ok instrs => .ok instrs

/-- The filtered token characters of a source text. -/
def tokenChars (s : List Char) : List Char := (scanTokens s).map Prod.fst

/-- The source locations of the filtered tokens. -/
def tokenLocs (s : List Char) : List SourceLocation := (scanTokens s).map Prod.snd

/-! ## `bft_interp/src/machine.rs`

The VM is embedded at the `u8` instance of the `CellKind` trait: cells are
`Nat` kept below 256 by the wrapping operations, and `as_bytes` of a `u8` is
its single big-endian byte.  The `Read`/`Write` channels are a list of
still-unread input bytes and a list of bytes written so far; `read_exact` of
one byte fails exactly when the input is exhausted, and the `io::Error` cause
inside `IoError` is not representable and is dropped (claims only concern the
instruction index). -/

/-- The kinds of tape the virtual machine supports (Rust `enum TapeKind`). -/
inductive TapeKind where
  | Growable
  | FixedSize
  deriving DecidableEq, Repr

/-- Errors that can occur while interpreting (Rust `enum InterpretError`,
with the `io::Error` payload of `IoError` omitted). -/
inductive InterpretError where
  | TapeRunOffError (ip_at_error : Nat)
  | IoError (ip_at_error : Nat)
  deriving DecidableEq, Repr

/-- `CommandResult`: the next instruction pointer, or an interpreter error. -/
abbrev CommandResult := Except InterpretError Nat

/-- `u8::wrapping_add(1)` of `CellKind::wrapping_inc`. -/
def wrappingInc (c : Nat) : Nat := (c + 1) % 256

/-- `u8::wrapping_sub(1)` of `CellKind::wrapping_dec`. -/
def wrappingDec (c : Nat) : Nat := (c + 255) % 256

/-- The brainfuck virtual machine state (Rust `struct Machine`), with the
borrowed program inlined as its instruction list. -/
structure Machine where
  program : List Instruction
  tape : List Nat
  tapeCanGrow : Bool
  dp : Nat
  ip : Nat
  deriving DecidableEq, Repr

/-- The input/output channels threaded through `Machine::run`: bytes not yet
consumed by the reader, and bytes already written to the writer. -/
structure IOState where
  input : List Nat
  output : List Nat
  deriving DecidableEq, Repr

/-- `Machine::new`: tape of `tape_size` default (zero) cells, growth policy
from `tape_kind`, both cursors at zero. -/
def Machine.new (tape_size : Nat) (tape_kind : TapeKind) (program : List Instruction) : Machine :=
  { program := program
    tape := List.replicate tape_size 0
    tapeCanGrow := decide (tape_kind = TapeKind.Growable)
    dp := 0
    ip := 0 }

/-- The cell at the data pointer, `self.tape[self.dp]`.  Rust indexing panics
out of bounds; the `dp < tape.len()` invariant (proved below) keeps every
access in range, so the `getD` default is never observed. -/
def Machine.cell (m : Machine) : Nat := m.tape.getD m.dp 0

/-- `Machine::move_head_left`: `dp.checked_sub(1)`, failing with
`TapeRunOffError` at the current `ip` when `dp` is zero. -/
def moveHeadLeft (m : Machine) (io : IOState) : CommandResult × Machine × IOState :=
  if m.dp = 0 then (.error (.TapeRunOffError m.ip), m, io)
  else (.ok (m.ip + 1), { m with dp := m.dp - 1 }, io)

/-- `Machine::move_head_right`: increment `dp`; if it reaches the end of the
tape either grow the tape (`reserve(1)` + `resize(capacity)` guarantees at
least one fresh default cell; the allocator-dependent extra capacity is
modelled as the guaranteed minimum of one) or roll `dp` back and fail with
`TapeRunOffError` at the current `ip`, leaving the machine unchanged. -/
def moveHeadRight (m : Machine) (io : IOState) : CommandResult × Machine × IOState :=
  let dp' := m.dp + 1
  if dp' ≥ m.tape.length then
    if m.tapeCanGrow then
      (.ok (m.ip + 1), { m with dp := dp', tape := m.tape ++ [0] }, io)
    else
      (.error (.TapeRunOffError m.ip), m, io)
  else
    (.ok (m.ip + 1), { m with dp := dp' }, io)

/-- `Machine::increment_cell`: wrap-increment the cell at `dp`. -/
def incrementCell (m : Machine) (io : IOState) : CommandResult × Machine × IOState :=
  (.ok (m.ip + 1), { m with tape := m.tape.set m.dp (wrappingInc m.cell) }, io)

/-- `Machine::decrement_cell`: wrap-decrement the cell at `dp`. -/
def decrementCell (m : Machine) (io : IOState) : CommandResult × Machine × IOState :=
  (.ok (m.ip + 1), { m with tape := m.tape.set m.dp (wrappingDec m.cell) }, io)

/-- `Machine::read_value`: `read_exact` one byte — on end of input fail with
`IoError` at the current `ip`, touching neither the tape nor the channels;
otherwise `set_value` it into the cell at `dp`. -/
def readValue (m : Machine) (io : IOState) : CommandResult × Machine × IOState :=
  match io.input with
  | [] => (.error (.IoError m.ip), m, io)
  | b :: rest =>
    (.ok (m.ip + 1), { m with tape := m.tape.set m.dp b }, { io with input := rest })

/-- `Machine::write_value`: `write_all` the big-endian bytes of the cell at
`dp` (one byte for `u8`); the `Vec`-backed writer never fails. -/
def writeValue (m : Machine) (io : IOState) : CommandResult × Machine × IOState :=
  (.ok (m.ip + 1), m, { io with output := io.output ++ [m.cell] })

/-- `Machine::jump_if_zero`: next `ip` is `dest` when the cell at `dp` is
zero, `ip + 1` otherwise. -/
def jumpIfZero (dest : Nat) (m : Machine) (io : IOState) : CommandResult × Machine × IOState :=
  if m.cell = 0 then (.ok dest, m, io) else (.ok (m.ip + 1), m, io)

/-- The dispatch `match` inside `Machine::run`.  The `Jnz` arm returns its
`dest` unconditionally (no method call, no state change). -/
def stepInstr (instr : Instruction) (m : Machine) (io : IOState) :
    CommandResult × Machine × IOState :=
  match instr with
  | .Inc => moveHeadRight m io
  | .Dec => moveHeadLeft m io
  | .Succ => incrementCell m io
  | .Pred => decrementCell m io
  | .In => readValue m io
  | .Out => writeValue m io
  | .Jz dest => jumpIfZero dest m io
  | .Jnz dest => (.ok dest, m, io)

/-- `Machine::run`: fetch at `ip` while in range, dispatch, store the
returned next `ip` or propagate the error.  The loop need not terminate, so
it is indexed by fuel; `none` means the fuel ran out. -/
def run : Nat → Machine → IOState → Option (Except InterpretError Unit × Machine × IOState)
  | 0, _, _ => none
  | fuel + 1, m, io =>
    match m.program[m.ip]? with
    | none => some (.ok (), m, io)
    | some instr =>
      match stepInstr instr m io with
      | (.ok nextIp, m', io') => run fuel { m' with ip := nextIp } io'
      | (.error e, m', io') => some (.error e, m', io')

/-- `k` successive `>` executions the way `run` performs them: dispatch
`move_head_right` and store the returned next `ip`, stopping at the first
error. -/
def movesRight : Nat → Machine → IOState → Except InterpretError (Machine × IOState)
  | 0, m, io => .ok (m, io)
  | k + 1, m, io =>
    match stepInstr .Inc m io with
    | (.ok nextIp, m', io') => movesRight k { m' with ip := nextIp } io'
    | (.error e, _, _) => .error e

/-! ## `bft_interp/src/newline_wrap.rs`

The wrapped `Write` sink is modelled as the list of bytes it has received. -/

/-- `struct NewlineWrap`: an inner sink plus the last byte written to it. -/
structure NewlineWrap where
  inner : List Nat
  lastWritten : Nat
  deriving DecidableEq, Repr

/-- `NewlineWrap::new`: empty history, `last_written` sentinel `0`. -/
def NewlineWrap.new : NewlineWrap := { inner := [], lastWritten := 0 }

/-- `Write::write` for `NewlineWrap`: forward the buffer to the inner sink
(a list sink accepts every byte) and remember the last byte, if any. -/
def NewlineWrap.write (w : NewlineWrap) (buf : List Nat) : NewlineWrap :=
  { inner := w.inner ++ buf
    lastWritten := buf.getLast?.getD w.lastWritten }

/-- `Drop::drop` for `NewlineWrap`: if the last byte written was not `'\n'`
(byte 10), write a single newline byte (`flush` is a no-op on a list sink). -/
def NewlineWrap.drop (w : NewlineWrap) : NewlineWrap :=
  if w.lastWritten ≠ 10 then w.write [10] else w

/-! ## Virtual-machine theorems -/

/-- Every dispatch step can only append to the output channel. -/
lemma stepInstr_output_mono (instr : Instruction) (m : Machine) (io : IOState) :
    ∃ t, (stepInstr instr m io).2.2.output = io.output ++ t := by
  cases instr with
  | Inc =>
    simp only [stepInstr, moveHeadRight]
    split
    · split
      · exact ⟨[], by simp⟩
      · exact ⟨[], by simp⟩
    · exact ⟨[], by simp⟩
  | Dec =>
    simp only [stepInstr, moveHeadLeft]
    split
    · exact ⟨[], by simp⟩
    · exact ⟨[], by simp⟩
  | Succ => exact ⟨[], by simp [stepInstr, incrementCell]⟩
  | Pred => exact ⟨[], by simp [stepInstr, decrementCell]⟩
  | In =>
    simp only [stepInstr, readValue]
    cases io.input with
    | nil => exact ⟨[], by simp⟩
    | cons b rest => exact ⟨[], by simp⟩
  | Out => exact ⟨[m.cell], by simp [stepInstr, writeValue]⟩
  | Jz dest =>
    simp only [stepInstr, jumpIfZero]
    split
    · exact ⟨[], by simp⟩
    · exact ⟨[], by simp⟩
  | Jnz dest => exact ⟨[], by simp [stepInstr]⟩

/-- C3.  Executing a `JumpIfNonZero{dest}` instruction unconditionally makes
`dest` the next instruction pointer — the dispatch arm never inspects the cell
at the data cursor — and changes neither the machine state (tape and `dp`
untouched) nor the I/O channels. -/
theorem jnz_unconditional_jump (dest : Nat) (m : Machine) (io : IOState) :
    stepInstr (.Jnz dest) m io = (.ok dest, m, io) := rfl

/-- C4.  A machine built with a positive initial tape size starts with
`dp < tape.len()`, and every single dispatch step — whether it returns a next
`ip` or an error — preserves `dp < tape.len()`, so each tape access at `dp`
made by `Increment`, `Decrement`, `Input`, `Output` and `JumpIfZero` is in
bounds. -/
theorem dp_in_bounds_invariant :
    (∀ size kind prog, 0 < size →
      (Machine.new size kind prog).dp < (Machine.new size kind prog).tape.length)
    ∧ (∀ instr m io, m.dp < m.tape.length →
      (stepInstr instr m io).2.1.dp < (stepInstr instr m io).2.1.tape.length) := by
  constructor
  · intro size kind prog hpos
    simpa [Machine.new] using hpos
  · intro instr m io hdp
    cases instr with
    | Inc =>
      simp only [stepInstr, moveHeadRight]
      split
      · split
        · have : m.dp + 1 < (m.tape ++ [0]).length := by simp; omega
          exact this
        · exact hdp
      · next h =>
        have : m.dp + 1 < m.tape.length := by omega
        exact this
    | Dec =>
      simp only [stepInstr, moveHeadLeft]
      split
      · exact hdp
      · have : m.dp - 1 < m.tape.length := by omega
        exact this
    | Succ => simpa [stepInstr, incrementCell] using hdp
    | Pred => simpa [stepInstr, decrementCell] using hdp
    | In =>
      simp only [stepInstr, readValue]
      cases io.input with
      | nil => exact hdp
      | cons b rest => simpa using hdp
    | Out => simpa [stepInstr, writeValue] using hdp
    | Jz dest =>
      simp only [stepInstr, jumpIfZero]
      split
      · exact hdp
      · exact hdp
    | Jnz dest => exact hdp

/-- C4 witness: the invariant, instantiated at a machine of tape size 1
executing an `Increment`. -/
theorem dp_in_bounds_invariant_witness :
    (0 < 1 ∧ (Machine.new 1 .FixedSize []).dp < (Machine.new 1 .FixedSize []).tape.length)
    ∧ (Machine.new 1 .FixedSize []).dp < (Machine.new 1 .FixedSize []).tape.length
    ∧ (stepInstr .Succ (Machine.new 1 .FixedSize []) ⟨[], []⟩).2.1.dp <
        (stepInstr .Succ (Machine.new 1 .FixedSize []) ⟨[], []⟩).2.1.tape.length :=
  ⟨⟨by decide, dp_in_bounds_invariant.1 1 .FixedSize [] (by decide)⟩,
    by decide,
    dp_in_bounds_invariant.2 .Succ (Machine.new 1 .FixedSize []) ⟨[], []⟩ (by decide)⟩

/-- Advancing the head `k` times succeeds while the tape is long enough,
leaving the tape, growth flag, program and channels unchanged and moving
`dp` and `ip` forward by `k`. -/
lemma movesRight_ok_of_lt :
    ∀ (k : Nat) (m : Machine) (io : IOState), m.dp + k < m.tape.length →
      movesRight k m io = .ok ({ m with dp := m.dp + k, ip := m.ip + k }, io) := by
  intro k
  induction k with
  | zero => intro m io _; simp [movesRight]
  | succ k ih =>
    intro m io hk
    have h1 : ¬ m.dp + 1 ≥ m.tape.length := by omega
    simp only [movesRight, stepInstr, moveHeadRight, if_neg h1]
    rw [ih { m with dp := m.dp + 1, ip := m.ip + 1 } io (by simpa using by omega)]
    congr 2
    simp
    omega

/-- C5.  On a fixed-size tape: advancing the head from any `dp` with
`dp + 1 < N` succeeds, returning next `ip = ip + 1` and moving `dp` one step;
advancing from `dp = N - 1` fails with `TapeRunOffError` carrying the current
instruction index and leaves the machine — `dp` and the tape contents — and
the channels exactly as they were; hence the first `N - 1` advances from
`dp = 0` (with the `ip` updates `run` performs) all succeed. -/
theorem fixed_tape_move_right_runoff :
    (∀ m io, m.tapeCanGrow = false → m.dp + 1 = m.tape.length →
      stepInstr .Inc m io = (.error (.TapeRunOffError m.ip), m, io))
    ∧ (∀ m io, m.dp + 1 < m.tape.length →
      stepInstr .Inc m io = (.ok (m.ip + 1), { m with dp := m.dp + 1 }, io))
    ∧ (∀ (N k : Nat) m io, m.tape.length = N → m.dp = 0 → 1 ≤ N → k ≤ N - 1 →
      movesRight k m io = .ok ({ m with dp := k, ip := m.ip + k }, io)) := by
  refine ⟨?_, ?_, ?_⟩
  · intro m io hfix heq
    simp [stepInstr, moveHeadRight, heq, hfix]
  · intro m io hlt
    have h1 : ¬ m.dp + 1 ≥ m.tape.length := by omega
    simp [stepInstr, moveHeadRight, if_neg h1]
  · intro N k m io hN hdp hN1 hk
    rw [movesRight_ok_of_lt k m io (by omega), hdp]
    simp

/-- C5 witness: on a fixed tape of length 3, two advances from `dp = 0`
succeed, a single advance succeeds below the edge, and the advance at
`dp = N - 1` fails leaving the machine untouched. -/
theorem fixed_tape_move_right_runoff_witness :
    (stepInstr .Inc { program := [], tape := [0, 0, 0], tapeCanGrow := false, dp := 2, ip := 5 }
        ⟨[], []⟩ =
      (.error (.TapeRunOffError 5),
        { program := [], tape := [0, 0, 0], tapeCanGrow := false, dp := 2, ip := 5 }, ⟨[], []⟩))
    ∧ (stepInstr .Inc (Machine.new 3 .FixedSize []) ⟨[], []⟩ =
      (.ok 1, { Machine.new 3 .FixedSize [] with dp := 1 }, ⟨[], []⟩))
    ∧ movesRight 2 (Machine.new 3 .FixedSize []) ⟨[], []⟩ =
      .ok ({ Machine.new 3 .FixedSize [] with dp := 2, ip := 2 }, ⟨[], []⟩) :=
  ⟨fixed_tape_move_right_runoff.1
      { program := [], tape := [0, 0, 0], tapeCanGrow := false, dp := 2, ip := 5 }
      ⟨[], []⟩ (by decide) (by decide),
    fixed_tape_move_right_runoff.2.1 (Machine.new 3 .FixedSize []) ⟨[], []⟩ (by decide),
    fixed_tape_move_right_runoff.2.2 3 2 (Machine.new 3 .FixedSize []) ⟨[], []⟩
      (by decide) (by decide) (by decide) (by decide)⟩

/-- C6.  On a growable tape (in a state satisfying the `dp < tape.len()`
invariant) advancing the head never fails: it returns next `ip = ip + 1`,
leaves the channels untouched, moves `dp` one step right, keeps
`dp < tape.len()`, never shrinks the tape, and preserves every cell value
below the old length exactly. -/
theorem growable_move_right_total (m : Machine) (io : IOState)
    (hg : m.tapeCanGrow = true) (hdp : m.dp < m.tape.length) :
    (stepInstr .Inc m io).1 = .ok (m.ip + 1)
    ∧ (stepInstr .Inc m io).2.2 = io
    ∧ (stepInstr .Inc m io).2.1.dp = m.dp + 1
    ∧ (stepInstr .Inc m io).2.1.dp < (stepInstr .Inc m io).2.1.tape.length
    ∧ m.tape.length ≤ (stepInstr .Inc m io).2.1.tape.length
    ∧ ∀ i, i < m.tape.length → (stepInstr .Inc m io).2.1.tape[i]? = m.tape[i]? := by
  simp only [stepInstr, moveHeadRight]
  by_cases h : m.dp + 1 ≥ m.tape.length
  · rw [if_pos h, if_pos hg]
    refine ⟨rfl, rfl, rfl, by simp; omega, by simp, ?_⟩
    intro i hi
    exact List.getElem?_append_left hi
  · rw [if_neg h]
    exact ⟨rfl, rfl, rfl, by simpa using by omega, le_refl _, fun i _ => rfl⟩

/-- C6 witness: the growable-advance theorem at a freshly built one-cell
growable machine. -/
theorem growable_move_right_total_witness :
    (Machine.new 1 .Growable []).tapeCanGrow = true
    ∧ (Machine.new 1 .Growable []).dp < (Machine.new 1 .Growable []).tape.length
    ∧ (stepInstr .Inc (Machine.new 1 .Growable []) ⟨[], []⟩).1 = .ok 1
    ∧ (stepInstr .Inc (Machine.new 1 .Growable []) ⟨[], []⟩).2.1.dp <
        (stepInstr .Inc (Machine.new 1 .Growable []) ⟨[], []⟩).2.1.tape.length :=
  ⟨by decide, by decide,
    (growable_move_right_total (Machine.new 1 .Growable []) ⟨[], []⟩ (by decide) (by decide)).1,
    (growable_move_right_total (Machine.new 1 .Growable []) ⟨[], []⟩ (by decide)
      (by decide)).2.2.2.1⟩

/-- C9.  When the instruction at the current `ip` is an `Input` and the input
channel is exhausted, `run` terminates at once with `IoError` carrying that
instruction's index, returning the machine (cell at `dp` untouched) and the
channels (all previously written output retained) unchanged; and across any
`run`, output is only ever appended, never rolled back. -/
theorem input_exhausted_io_error :
    (∀ fuel m io, m.program[m.ip]? = some .In → io.input = [] →
      run (fuel + 1) m io = some (.error (.IoError m.ip), m, io))
    ∧ (∀ fuel m io r m' io', run fuel m io = some (r, m', io') →
      ∃ t, io'.output = io.output ++ t) := by
  constructor
  · intro fuel m io hin hempty
    simp [run, hin, stepInstr, readValue, hempty]
  · intro fuel
    induction fuel with
    | zero => intro m io r m' io' h; simp [run] at h
    | succ fuel ih =>
      intro m io r m' io' h
      cases hget : m.program[m.ip]? with
      | none =>
        simp only [run, hget] at h
        obtain ⟨-, -, rfl⟩ := Prod.mk.injEq .. ▸ Option.some.injEq .. ▸ h
        exact ⟨[], by simp⟩
      | some instr =>
        simp only [run, hget] at h
        obtain ⟨t1, ht1⟩ := stepInstr_output_mono instr m io
        rcases hstep : stepInstr instr m io with ⟨res, ms, ios⟩
        rw [hstep] at h ht1
        simp only at ht1
        cases res with
        | ok nextIp =>
          simp only at h
          obtain ⟨t2, ht2⟩ := ih { ms with ip := nextIp } ios r m' io' h
          exact ⟨t1 ++ t2, by rw [ht2, ht1, List.append_assoc]⟩
        | error e =>
          simp only [Option.some.injEq, Prod.mk.injEq] at h
          exact ⟨t1, by rw [← h.2.2]; exact ht1⟩

/-- C9 witness: a one-instruction program `,` against an empty input channel
with one byte already written errors immediately with `IoError` at index 0,
keeping machine and channels intact. -/
theorem input_exhausted_io_error_witness :
    run 5 { program := [.In], tape := [0], tapeCanGrow := false, dp := 0, ip := 0 } ⟨[], [65]⟩ =
      some (.error (.IoError 0),
        { program := [.In], tape := [0], tapeCanGrow := false, dp := 0, ip := 0 }, ⟨[], [65]⟩) :=
  input_exhausted_io_error.1 4
    { program := [.In], tape := [0], tapeCanGrow := false, dp := 0, ip := 0 } ⟨[], [65]⟩
    (by decide) (by decide)

/-- C10.  A `NewlineWrap` constructed and then dropped with no byte ever
written starts with the `last_written` sentinel 0 — which is not the newline
byte — so the drop handler writes exactly one byte, `0x0A`, to the inner
sink. -/
theorem newline_wrap_drop_writes_newline :
    NewlineWrap.new.lastWritten = 0
    ∧ (NewlineWrap.drop NewlineWrap.new).inner = [10] := by
  constructor <;> rfl

/-! ## Loader theorems: comment filtering (C7) -/

/-- Splitting inclusively at newlines loses no characters. -/
lemma flatten_splitInclusiveNl (s : List Char) : (splitInclusiveNl s).flatten = s := by
  induction s with
  | nil => rfl
  | cons c rest ih =>
    by_cases h : c = '\n'
    · subst h
      simp [splitInclusiveNl, ih]
    · rw [splitInclusiveNl, if_neg h]
      cases h2 : splitInclusiveNl rest with
      | nil =>
        have : rest = [] := by rw [← ih, h2]; rfl
        simp [this]
      | cons l ls =>
        have : (l :: ls).flatten = rest := by rw [← h2, ih]
        simpa using this

/-- Filtering with a predicate that rejects `'\n'` and `'\r'` does not see the
line terminators `str::lines` strips. -/
lemma filter_stripNl (p : Char → Bool) (hn : p '\n' = false) (hr : p '\r' = false)
    (l : List Char) : (stripNl l).filter p = l.filter p := by
  have key : ∀ (t : List Char) (c : Char), p c = false → t.getLast? = some c →
      t.dropLast.filter p = t.filter p := by
    intro t c hc hlast
    conv_rhs => rw [← List.dropLast_append_getLast? c hlast]
    simp [List.filter_append, hc]
  rw [stripNl]
  by_cases h1 : l.getLast? = some '\n'
  · rw [if_pos h1]
    have e1 : l.dropLast.filter p = l.filter p := key l '\n' hn h1
    by_cases h2 : l.dropLast.getLast? = some '\r'
    · rw [if_pos h2]
      rw [key l.dropLast '\r' hr h2, e1]
    · rw [if_neg h2, e1]
  · rw [if_neg h1]

/-- The characters of the filtered tokens of one scanned line. -/
lemma scanLine_chars (n : Nat) (l : List Char) :
    (scanLine n l).map Prod.fst = l.filter isBfChar := by
  have aux : ∀ (l : List Char) (k : Nat),
      ((l.enumFrom k).filterMap fun q =>
        if isBfChar q.2 then some (q.2, SourceLocation.mk n q.1) else none).map Prod.fst =
      l.filter isBfChar := by
    intro l
    induction l with
    | nil => intro k; rfl
    | cons c rest ih =>
      intro k
      by_cases h : isBfChar c
      · simp only [List.enumFrom, List.filterMap_cons, h, if_pos, List.map_cons, List.filter_cons,
          ih (k + 1)]
      · simp only [List.enumFrom, List.filterMap_cons, h, if_neg, List.filter_cons]
        simp only [h, Bool.false_eq_true, if_false]
        exact ih (k + 1)
  exact aux l 0

/-- The line numbers attached by `enumerate` do not affect which characters
the scan keeps: projecting the tokens of a source text onto their characters
is exactly filtering the text by the opcode alphabet. -/
lemma tokenChars_eq_filter (s : List Char) : tokenChars s = s.filter isBfChar := by
  have hn : isBfChar '\n' = false := by decide
  have hr : isBfChar '\r' = false := by decide
  rw [tokenChars, scanTokens, List.map_flatten, List.map_map]
  have e1 : ((linesOf s).enum.map (List.map Prod.fst ∘ fun p => scanLine p.1 p.2)) =
      (linesOf s).enum.map fun p => p.2.filter isBfChar := by
    apply List.map_congr_left
    intro p _
    exact scanLine_chars p.1 p.2
  rw [e1]
  have e2 : ((linesOf s).enum.map fun p => p.2.filter isBfChar) =
      (linesOf s).map fun l => l.filter isBfChar := by
    have : ((linesOf s).enum.map fun p => p.2.filter isBfChar) =
        ((linesOf s).enum.map Prod.snd).map fun l => l.filter isBfChar := by
      rw [List.map_map]; rfl
    rw [this, List.enum_map_snd]
  rw [e2, linesOf, List.map_map]
  have e3 : ((splitInclusiveNl s).map ((fun l => l.filter isBfChar) ∘ stripNl)) =
      (splitInclusiveNl s).map (List.filter isBfChar) := by
    apply List.map_congr_left
    intro l _
    exact filter_stripNl isBfChar hn hr l
  rw [e3, ← List.filter_flatten, flatten_splitInclusiveNl]

/-- Up-to-diagnostics, `try_new` is its location-independent core on the
filtered token characters: error locations are forgotten, kinds kept. -/
lemma tryNew_upToDiag (s : List Char) :
    (tryNew s).mapError BfParseError.kind = (parseInstrs (tokenChars s)).mapError Prod.snd := by
  rw [tryNew, tokenChars]
  cases h : parseInstrs ((scanTokens s).map Prod.fst) with
  | error e => simp [h, Except.mapError]
  | ok instrs => simp [h, Except.mapError]

/-- C7.  Characters outside the 8-symbol opcode alphabet (whitespace and
newlines included) never affect the loader's result up to diagnostics: any
two source texts with the same alphabet-filtered character stream — in
particular a text and its filtered text — load to the identical instruction
sequence (same count, opcodes and resolved jump destinations), or fail with
the same error kind. -/
theorem comment_filtering (s t : List Char)
    (h : s.filter isBfChar = t.filter isBfChar) :
    (tryNew s).mapError BfParseError.kind = (tryNew t).mapError BfParseError.kind := by
  rw [tryNew_upToDiag, tryNew_upToDiag, tokenChars_eq_filter, tokenChars_eq_filter, h]

/-- C7 witness: a commented text and its filtered text load to the same
instruction sequence. -/
theorem comment_filtering_witness :
    ("comment [ +++ ] done\n".toList.filter isBfChar = "[+++]".toList.filter isBfChar)
    ∧ (tryNew "comment [ +++ ] done\n".toList).mapError BfParseError.kind =
      (tryNew "[+++]".toList).mapError BfParseError.kind :=
  ⟨by decide, comment_filtering "comment [ +++ ] done\n".toList "[+++]".toList (by decide)⟩

/-! ## Loader theorems: the bracket-matching invariant (C1, C2, C8) -/

/-- The jump map pairs positions symmetrically, each pair consisting of one
`'['` and one `']'` with the open bracket first. -/
def PairOk (toks : List Char) (j : JumpMap) : Prop :=
  ∀ a b, j a = some b → j b = some a ∧
    ((toks[a]? = some '[' ∧ toks[b]? = some ']' ∧ a < b) ∨
     (toks[a]? = some ']' ∧ toks[b]? = some '[' ∧ b < a))

/-- Invariant of the bracket-matching loop after the first `n` tokens:
matched pairs are symmetric, typed, and were inserted below `n`; the stack
holds exactly the still-unmatched `'['` positions, newest first (strictly
decreasing); and every bracket position below `n` is matched or on the
stack. -/
def ScanInv (toks : List Char) (n : Nat) (j : JumpMap) (st : List Nat) : Prop :=
  PairOk toks j
  ∧ (∀ a b, j a = some b → a < n)
  ∧ (∀ a ∈ st, toks[a]? = some '[' ∧ a < n ∧ j a = none)
  ∧ (∀ a, a < n → (toks[a]? = some '[' ∨ toks[a]? = some ']') → j a ≠ none ∨ a ∈ st)
  ∧ st.Pairwise (fun x y => y < x)

/-- The invariant holds at the start of the scan. -/
lemma scanInv_zero (toks : List Char) : ScanInv toks 0 emptyJ [] := by
  refine ⟨?_, ?_, ?_, ?_, ?_⟩
  · intro a b hab; exact Option.noConfusion hab
  · intro a b hab; exact Option.noConfusion hab
  · intro a ha; exact absurd ha (List.not_mem_nil a)
  · intro a ha; omega
  · exact List.Pairwise.nil

/-- Pushing the position of a fresh `'['` preserves the invariant. -/
lemma scanInv_push (toks : List Char) (n : Nat) (j : JumpMap) (st : List Nat)
    (hc : toks[n]? = some '[') (h : ScanInv toks n j st) :
    ScanInv toks (n + 1) j (n :: st) := by
  obtain ⟨hpair, hdom, hstack, hcover, hpw⟩ := h
  have hjn : j n = none := by
    cases hn : j n with
    | none => rfl
    | some b => exact absurd (hdom n b hn) (lt_irrefl n)
  refine ⟨hpair, fun a b hab => Nat.lt_succ_of_lt (hdom a b hab), ?_, ?_, ?_⟩
  · intro a ha
    rcases List.mem_cons.mp ha with heq | ha'
    · rw [heq]
      exact ⟨hc, Nat.lt_succ_self n, hjn⟩
    · obtain ⟨x1, x2, x3⟩ := hstack a ha'
      exact ⟨x1, Nat.lt_succ_of_lt x2, x3⟩
  · intro a ha hbr
    rcases Nat.lt_succ_iff_lt_or_eq.mp ha with ha' | heq
    · rcases hcover a ha' hbr with h1 | h1
      · exact Or.inl h1
      · exact Or.inr (List.mem_cons_of_mem _ h1)
    · right
      rw [heq]
      exact List.mem_cons_self _ _
  · exact List.pairwise_cons.mpr ⟨fun a ha => (hstack a ha).2.1, hpw⟩

/-- Skipping a non-bracket opcode preserves the invariant. -/
lemma scanInv_skip (toks : List Char) (n : Nat) (j : JumpMap) (st : List Nat) (c : Char)
    (hc : toks[n]? = some c) (h1 : ¬c = '[') (h2 : ¬c = ']') (h : ScanInv toks n j st) :
    ScanInv toks (n + 1) j st := by
  obtain ⟨hpair, hdom, hstack, hcover, hpw⟩ := h
  refine ⟨hpair, fun a b hab => Nat.lt_succ_of_lt (hdom a b hab), ?_, ?_, hpw⟩
  · intro a ha
    obtain ⟨x1, x2, x3⟩ := hstack a ha
    exact ⟨x1, Nat.lt_succ_of_lt x2, x3⟩
  · intro a ha hbr
    rcases Nat.lt_succ_iff_lt_or_eq.mp ha with ha' | heq
    · exact hcover a ha' hbr
    · rw [heq] at hbr
      rcases hbr with hb | hb
      · rw [hc] at hb; exact absurd (Option.some.inj hb) h1
      · rw [hc] at hb; exact absurd (Option.some.inj hb) h2

/-- Matching a `']'` against the top of the stack — inserting the two jump
entries — preserves the invariant. -/
lemma scanInv_pop (toks : List Char) (n : Nat) (j : JumpMap) (src : Nat) (st : List Nat)
    (hc : toks[n]? = some ']') (h : ScanInv toks n j (src :: st)) :
    ScanInv toks (n + 1) (updJ (updJ j src n) n src) st := by
  obtain ⟨hpair, hdom, hstack, hcover, hpw⟩ := h
  obtain ⟨hsrcTok, hsrcLt, hsrcNone⟩ := hstack src (List.mem_cons_self _ _)
  have hj2 : ∀ x, updJ (updJ j src n) n src x =
      if x = n then some src else if x = src then some n else j x := fun _ => rfl
  have hnotn : ∀ a b, j a = some b → b ≠ n := by
    intro a b hab hbn
    rw [hbn] at hab
    exact absurd (hdom n a (hpair a n hab).1) (lt_irrefl n)
  have hnotsrc : ∀ a b, j a = some b → b ≠ src := by
    intro a b hab hbs
    rw [hbs] at hab
    have := (hpair a src hab).1
    rw [hsrcNone] at this
    exact Option.noConfusion this
  have hsrcNe : src ≠ n := Nat.ne_of_lt hsrcLt
  refine ⟨?_, ?_, ?_, ?_, (List.pairwise_cons.mp hpw).2⟩
  · intro a b hab
    rw [hj2] at hab
    by_cases han : a = n
    · rw [if_pos han] at hab
      obtain rfl := Option.some.inj hab
      rw [han]
      refine ⟨?_, Or.inr ⟨hc, hsrcTok, hsrcLt⟩⟩
      rw [hj2, if_neg hsrcNe, if_pos rfl]
    · rw [if_neg han] at hab
      by_cases has : a = src
      · rw [if_pos has] at hab
        obtain rfl := Option.some.inj hab
        rw [has]
        refine ⟨?_, Or.inl ⟨hsrcTok, hc, hsrcLt⟩⟩
        rw [hj2, if_pos rfl]
      · rw [if_neg has] at hab
        obtain ⟨hsym, htyp⟩ := hpair a b hab
        refine ⟨?_, htyp⟩
        rw [hj2, if_neg (hnotn a b hab), if_neg (hnotsrc a b hab)]
        exact hsym
  · intro a b hab
    rw [hj2] at hab
    by_cases han : a = n
    · rw [han]; exact Nat.lt_succ_self n
    · rw [if_neg han] at hab
      by_cases has : a = src
      · rw [has]; exact Nat.lt_succ_of_lt hsrcLt
      · rw [if_neg has] at hab; exact Nat.lt_succ_of_lt (hdom a b hab)
  · intro a ha
    obtain ⟨x1, x2, x3⟩ := hstack a (List.mem_cons_of_mem _ ha)
    have hasrc : a ≠ src := Nat.ne_of_lt ((List.pairwise_cons.mp hpw).1 a ha)
    have han : a ≠ n := Nat.ne_of_lt x2
    refine ⟨x1, Nat.lt_succ_of_lt x2, ?_⟩
    rw [hj2, if_neg han, if_neg hasrc]
    exact x3
  · intro a ha hbr
    by_cases han : a = n
    · left
      rw [hj2, if_pos han]
      exact fun hcontra => Option.noConfusion hcontra
    · have ha' : a < n := by omega
      rcases hcover a ha' hbr with h1 | h1
      · left
        rw [hj2, if_neg han]
        by_cases has : a = src
        · rw [if_pos has]
          exact fun hcontra => Option.noConfusion hcontra
        · rw [if_neg has]
          exact h1
      · rcases List.mem_cons.mp h1 with rfl | h2
        · left
          rw [hj2, if_neg han, if_pos rfl]
          exact fun hcontra => Option.noConfusion hcontra
        · exact Or.inr h2

/-- Running the bracket-matching loop to a successful end establishes the
invariant over the whole token list. -/
lemma scanLoop_inv (toks : List Char) :
    ∀ (rem : List Char) (n : Nat) (j : JumpMap) (st : List Nat) (j' : JumpMap) (st' : List Nat),
      toks.drop n = rem → ScanInv toks n j st →
      scanLoop n rem j st = .ok (j', st') →
      ScanInv toks (n + rem.length) j' st' := by
  intro rem
  induction rem with
  | nil =>
    intro n j st j' st' _ hinv hrun
    simp only [scanLoop, Except.ok.injEq, Prod.mk.injEq] at hrun
    obtain ⟨rfl, rfl⟩ := hrun
    simpa using hinv
  | cons c rest ih =>
    intro n j st j' st' hdrop hinv hrun
    have hcTok : toks[n]? = some c := by
      have := List.getElem?_drop toks n 0
      rw [hdrop] at this
      simpa using this.symm
    have hdrop' : toks.drop (n + 1) = rest := by
      have := List.drop_drop 1 n toks
      rw [hdrop] at this
      simpa using this.symm
    have harith : n + (c :: rest).length = n + 1 + rest.length := by
      simp [List.length_cons]
      omega
    rw [harith]
    simp only [scanLoop] at hrun
    by_cases h1 : c = '['
    · rw [if_pos h1] at hrun
      rw [h1] at hcTok
      exact ih (n + 1) j (n :: st) j' st' hdrop' (scanInv_push toks n j st hcTok hinv) hrun
    · rw [if_neg h1] at hrun
      by_cases h2 : c = ']'
      · rw [if_pos h2] at hrun
        rw [h2] at hcTok
        cases st with
        | nil => exact Except.noConfusion hrun
        | cons src st0 =>
          exact ih (n + 1) _ st0 j' st' hdrop' (scanInv_pop toks n j src st0 hcTok hinv) hrun
      · rw [if_neg h2] at hrun
        exact ih (n + 1) j st j' st' hdrop' (scanInv_skip toks n j st c hcTok h1 h2 hinv) hrun

/-- A successful parse is a successful scan with an empty final stack,
followed by instruction construction from the resulting jump map. -/
lemma parseInstrs_ok (toks : List Char) (instrs : List Instruction)
    (h : parseInstrs toks = .ok instrs) :
    ∃ jm, scanLoop 0 toks emptyJ [] = .ok (jm, []) ∧
      instrs = toks.enum.map fun p => buildInstr jm p.1 p.2 := by
  unfold parseInstrs at h
  cases hscan : scanLoop 0 toks emptyJ [] with
  | error i =>
    rw [hscan] at h
    exact Except.noConfusion h
  | ok p =>
    obtain ⟨jm, st⟩ := p
    rw [hscan] at h
    cases st with
    | nil => exact ⟨jm, rfl, (Except.ok.inj h).symm⟩
    | cons u rest => exact Except.noConfusion h

/-- The instruction builder yields `Jz` exactly for `'['`, with the
destination read off the jump map. -/
lemma buildInstr_eq_Jz {jm : JumpMap} {i : Nat} {c : Char} {d : Nat}
    (h : buildInstr jm i c = .Jz d) : c = '[' ∧ d = (jm i).getD 0 + 1 := by
  unfold buildInstr at h
  split_ifs at h with h1 h2 h3 h4 h5 h6 h7 h8
  all_goals first
    | exact Instruction.noConfusion h
    | exact ⟨h7, (Instruction.Jz.inj h).symm⟩

/-- The instruction builder yields `Jnz` exactly for `']'`, with the
destination read off the jump map. -/
lemma buildInstr_eq_Jnz {jm : JumpMap} {i : Nat} {c : Char} {d : Nat}
    (h : buildInstr jm i c = .Jnz d) : c = ']' ∧ d = (jm i).getD 0 + 1 := by
  unfold buildInstr at h
  split_ifs at h with h1 h2 h3 h4 h5 h6 h7 h8
  all_goals first
    | exact Instruction.noConfusion h
    | exact ⟨h8, (Instruction.Jnz.inj h).symm⟩

/-- A successful `try_new` is a successful location-independent parse of the
filtered token characters. -/
lemma tryNew_ok (s : List Char) (instrs : List Instruction) (h : tryNew s = .ok instrs) :
    parseInstrs (tokenChars s) = .ok instrs := by
  rw [tryNew] at h
  revert h
  cases hq : parseInstrs ((scanTokens s).map Prod.fst) with
  | error e => intro h; exact Except.noConfusion h
  | ok is =>
    intro h
    rw [show tokenChars s = (scanTokens s).map Prod.fst from rfl, hq]
    exact congrArg Except.ok (Except.ok.inj h)

/-- C1.  For every source text that loads successfully, the bracket
instructions pair up symmetrically: a `JumpIfZero` at index `i` has
`dest = cj + 1` for some close-bracket index `cj > i` whose `JumpIfNonZero`
has `dest = i + 1`, and conversely every `JumpIfNonZero` at index `cj` has
`dest = i + 1` for some open-bracket index `i < cj` whose `JumpIfZero` has
`dest = cj + 1` (round-trip jump-table symmetry, each destination one past
its matching partner). -/
theorem jump_table_symmetry (s : List Char) (instrs : List Instruction)
    (h : tryNew s = .ok instrs) :
    (∀ i d, instrs[i]? = some (.Jz d) →
      ∃ cj, d = cj + 1 ∧ i < cj ∧ instrs[cj]? = some (.Jnz (i + 1)))
    ∧ (∀ cj d, instrs[cj]? = some (.Jnz d) →
      ∃ i, d = i + 1 ∧ i < cj ∧ instrs[i]? = some (.Jz (cj + 1))) := by
  obtain ⟨jm, hscan, hinstr⟩ := parseInstrs_ok _ _ (tryNew_ok s instrs h)
  obtain ⟨hpair, hdom, hstack, hcover, hpw⟩ :=
    scanLoop_inv (tokenChars s) (tokenChars s) 0 emptyJ [] jm [] (by simp)
      (scanInv_zero _) hscan
  have hAt : ∀ k, instrs[k]? = ((tokenChars s)[k]?).map fun c => buildInstr jm k c := by
    intro k
    rw [hinstr, List.getElem?_map, List.getElem?_enum]
    cases (tokenChars s)[k]? <;> rfl
  constructor
  · intro i d hJz
    rw [hAt i] at hJz
    cases hc : (tokenChars s)[i]? with
    | none => rw [hc] at hJz; exact Option.noConfusion hJz
    | some c =>
      rw [hc] at hJz
      obtain ⟨hcEq, hd⟩ := buildInstr_eq_Jz (Option.some.inj hJz)
      rw [hcEq] at hc
      have hiLen : i < (tokenChars s).length := (List.getElem?_eq_some.mp hc).1
      rcases hcover i (by omega) (Or.inl hc) with hne | hmem
      · cases hjm : jm i with
        | none => exact absurd hjm hne
        | some b =>
          obtain ⟨hsym, htyp⟩ := hpair i b hjm
          rcases htyp with ⟨_, hbTok, hib⟩ | ⟨hiTok, _, _⟩
          · refine ⟨b, ?_, hib, ?_⟩
            · rw [hd, hjm]; rfl
            · rw [hAt b, hbTok]
              simp [buildInstr, hsym]
          · rw [hc] at hiTok
            exact absurd (Option.some.inj hiTok) (by decide)
      · exact absurd hmem (List.not_mem_nil i)
  · intro cj d hJnz
    rw [hAt cj] at hJnz
    cases hc : (tokenChars s)[cj]? with
    | none => rw [hc] at hJnz; exact Option.noConfusion hJnz
    | some c =>
      rw [hc] at hJnz
      obtain ⟨hcEq, hd⟩ := buildInstr_eq_Jnz (Option.some.inj hJnz)
      rw [hcEq] at hc
      have hjLen : cj < (tokenChars s).length := (List.getElem?_eq_some.mp hc).1
      rcases hcover cj (by omega) (Or.inr hc) with hne | hmem
      · cases hjm : jm cj with
        | none => exact absurd hjm hne
        | some a =>
          obtain ⟨hsym, htyp⟩ := hpair cj a hjm
          rcases htyp with ⟨hjTok, _, _⟩ | ⟨_, haTok, hacj⟩
          · rw [hc] at hjTok
            exact absurd (Option.some.inj hjTok) (by decide)
          · refine ⟨a, ?_, hacj, ?_⟩
            · rw [hd, hjm]; rfl
            · rw [hAt a, haTok]
              simp [buildInstr, hsym]
      · exact absurd hmem (List.not_mem_nil cj)

/-- The bracket-matching loop processes an appended token list in two stages,
the second starting at the index and state the first stage reached. -/
lemma scanLoop_append (l1 l2 : List Char) :
    ∀ (n : Nat) (j : JumpMap) (st : List Nat),
      scanLoop n (l1 ++ l2) j st =
        match scanLoop n l1 j st with
        | .error e => .error e
        | .ok p => scanLoop (n + l1.length) l2 p.1 p.2 := by
  induction l1 with
  | nil =>
    intro n j st
    simp [scanLoop]
  | cons c rest ih =>
    intro n j st
    have harith : n + 1 + rest.length = n + (c :: rest).length := by
      simp [List.length_cons]
      omega
    by_cases h1 : c = '['
    · have hL : scanLoop n ((c :: rest) ++ l2) j st =
          scanLoop (n + 1) (rest ++ l2) j (n :: st) := by
        rw [List.cons_append]
        simp only [scanLoop]
        rw [if_pos h1]
      have hR : scanLoop n (c :: rest) j st = scanLoop (n + 1) rest j (n :: st) := by
        simp only [scanLoop]
        rw [if_pos h1]
      rw [hL, hR, ih (n + 1) j (n :: st), harith]
    · by_cases h2 : c = ']'
      · cases st with
        | nil =>
          have hL : scanLoop n ((c :: rest) ++ l2) j [] = .error n := by
            rw [List.cons_append]
            simp only [scanLoop]
            rw [if_neg h1, if_pos h2]
          have hR : scanLoop n (c :: rest) j [] = .error n := by
            simp only [scanLoop]
            rw [if_neg h1, if_pos h2]
          rw [hL, hR]
        | cons src st0 =>
          have hL : scanLoop n ((c :: rest) ++ l2) j (src :: st0) =
              scanLoop (n + 1) (rest ++ l2) (updJ (updJ j src n) n src) st0 := by
            rw [List.cons_append]
            simp only [scanLoop]
            rw [if_neg h1, if_pos h2]
          have hR : scanLoop n (c :: rest) j (src :: st0) =
              scanLoop (n + 1) rest (updJ (updJ j src n) n src) st0 := by
            simp only [scanLoop]
            rw [if_neg h1, if_pos h2]
          rw [hL, hR, ih (n + 1) _ st0, harith]
      · have hL : scanLoop n ((c :: rest) ++ l2) j st =
            scanLoop (n + 1) (rest ++ l2) j st := by
          rw [List.cons_append]
          simp only [scanLoop]
          rw [if_neg h1, if_neg h2]
        have hR : scanLoop n (c :: rest) j st = scanLoop (n + 1) rest j st := by
          simp only [scanLoop]
          rw [if_neg h1, if_neg h2]
        rw [hL, hR, ih (n + 1) j st, harith]

/-- C1 witness: the program `><+-.,[]` loads and its bracket pair at indices
6 and 7 satisfies the round-trip symmetry. -/
theorem jump_table_symmetry_witness :
    tryNew "><+-.,[]".toList =
      .ok [.Inc, .Dec, .Succ, .Pred, .Out, .In, .Jz 8, .Jnz 7]
    ∧ ∃ cj, 8 = cj + 1 ∧ 6 < cj ∧
      ([.Inc, .Dec, .Succ, .Pred, .Out, .In, .Jz 8, .Jnz 7] :
        List Instruction)[cj]? = some (.Jnz 7) :=
  ⟨rfl,
    (jump_table_symmetry "><+-.,[]".toList
        [.Inc, .Dec, .Succ, .Pred, .Out, .In, .Jz 8, .Jnz 7] rfl).1
      6 8 (by decide)⟩

/-- C8.  Whenever the scan reaches a `']'` token whose pending-open-bracket
stack is empty at that moment (the scan of the preceding tokens ended with an
empty stack), loading fails immediately with `UnopenedBracket` at that close
bracket's recorded source location; in particular the 17-character text
`"[[[[[[[[]]]]]]]]]"` fails with `UnopenedBracket` at line 0, column 16. -/
theorem unopened_bracket_error (s : List Char) (i : Nat) (jm : JumpMap)
    (htok : (tokenChars s)[i]? = some ']')
    (hscan : scanLoop 0 ((tokenChars s).take i) emptyJ [] = .ok (jm, [])) :
    tryNew s = .error ⟨(tokenLocs s).getD i ⟨0, 0⟩, .UnopenedBracket⟩
    ∧ tryNew "[[[[[[[[]]]]]]]]]".toList = .error ⟨⟨0, 16⟩, .UnopenedBracket⟩ := by
  refine ⟨?_, rfl⟩
  have hiLen : i < (tokenChars s).length := (List.getElem?_eq_some.mp htok).1
  have hparse : parseInstrs (tokenChars s) = .error (i, .UnopenedBracket) := by
    cases hD : (tokenChars s).drop i with
    | nil =>
      have hnone : (tokenChars s)[i]? = none := by
        have := List.getElem?_drop (tokenChars s) i 0
        rw [hD] at this
        simpa using this.symm
      rw [htok] at hnone
      exact Option.noConfusion hnone
    | cons c rest =>
      have hcEq : c = ']' := by
        have := List.getElem?_drop (tokenChars s) i 0
        rw [hD] at this
        simp only [Nat.add_zero, htok] at this
        simpa using this
      have hsplit : (tokenChars s).take i ++ c :: rest = tokenChars s := by
        rw [← hD]
        exact List.take_append_drop i _
      have htake : ((tokenChars s).take i).length = i := by
        rw [List.length_take]
        omega
      unfold parseInstrs
      rw [← hsplit, scanLoop_append, hscan]
      simp [htake, hcEq, scanLoop]
  rw [tokenChars] at hparse
  simp only [tryNew, hparse]
  rfl

/-- C8 witness: the one-character text `"]"` has an empty stack when its
close bracket is scanned, and fails with `UnopenedBracket` at line 0,
column 0. -/
theorem unopened_bracket_error_witness :
    (tokenChars "]".toList)[0]? = some ']'
    ∧ tryNew "]".toList = .error ⟨⟨0, 0⟩, .UnopenedBracket⟩ :=
  ⟨by decide, (unopened_bracket_error "]".toList 0 emptyJ (by decide) rfl).1⟩

/-- C2 (amended).  When the scan of the whole filtered token stream succeeds
but leaves a non-empty pending-bracket stack, loading fails with
`UnclosedBracket` at the source location of the **top-of-stack** unmatched
open bracket — the most recently pushed (innermost) one, which
`jump_stack.pop()` returns — not the earliest-pushed one; that reported
position does hold an open bracket, and on the spec's example
`"[[[[[[[[[]]]]]]]]"`, where only one unmatched open remains, this is
column 0. -/
theorem unclosed_bracket_error (s : List Char) (o : Nat) (jm : JumpMap) (stRest : List Nat)
    (hscan : scanLoop 0 (tokenChars s) emptyJ [] = .ok (jm, o :: stRest)) :
    tryNew s = .error ⟨(tokenLocs s).getD o ⟨0, 0⟩, .UnclosedBracket⟩
    ∧ (tokenChars s)[o]? = some '['
    ∧ tryNew "[[[[[[[[[]]]]]]]]".toList = .error ⟨⟨0, 0⟩, .UnclosedBracket⟩ := by
  refine ⟨?_, ?_, rfl⟩
  · have hparse : parseInstrs (tokenChars s) = .error (o, .UnclosedBracket) := by
      unfold parseInstrs
      rw [hscan]
    rw [tokenChars] at hparse
    simp only [tryNew, hparse]
    rfl
  · have hinv := scanLoop_inv (tokenChars s) (tokenChars s) 0 emptyJ [] jm (o :: stRest)
      (by simp) (scanInv_zero _) hscan
    exact (hinv.2.2.1 o (List.mem_cons_self _ _)).1

/-- C2 counterexample: for the text `"[["` both open brackets are unmatched;
the first, earliest-pushed (bottom-of-stack) one sits at line 0, column 0,
but the loader reports `UnclosedBracket` at line 0, column 1 — the
most-recently-pushed one — so the claim as stated is false on `"[["`. -/
theorem unclosed_bracket_not_bottom_of_stack :
    tryNew "[[".toList = .error ⟨⟨0, 1⟩, .UnclosedBracket⟩
    ∧ tryNew "[[".toList ≠ .error ⟨⟨0, 0⟩, .UnclosedBracket⟩ := by
  refine ⟨rfl, ?_⟩
  intro hcontra
  rw [show tryNew "[[".toList = .error ⟨⟨0, 1⟩, .UnclosedBracket⟩ from rfl] at hcontra
  simp at hcontra

/-- C2 witness: the one-character text `"["` leaves its open bracket on the
stack and fails with `UnclosedBracket` at line 0, column 0. -/
theorem unclosed_bracket_error_witness :
    tryNew "[".toList = .error ⟨⟨0, 0⟩, .UnclosedBracket⟩
    ∧ (tokenChars "[".toList)[0]? = some '[' :=
  ⟨(unclosed_bracket_error "[".toList 0 emptyJ [] rfl).1,
    (unclosed_bracket_error "[".toList 0 emptyJ [] rfl).2.1⟩
